import Mathlib

/-!
Verification of the Calibration Resolution & Pending-Retry Engine of the
ObservationObject repository.  The Python sources are shallowly embedded:
datetimes become integers (seconds), numpy matrices become rationals where
pixel values matter, the calibration store (one directory per calendar-date
partition) becomes a function from the signed day offset (relative to the
target night) to the list of master-frame files living in that partition,
and exceptions become `Except` values.
-/

/-- Python exceptions raised by the embedded code. -/
inductive PyErr where
  /-- `IndexError`, e.g. from `files[0]` on an empty list. -/
  | indexError : PyErr
  /-- `ers.SuitableMasterMissingError(f"Could not find a suitable
  {frame_type} of binning {binning}")`, carrying the frame type and binning
  named in the message. -/
  | suitableMasterMissing (frame_type binning : List Char) : PyErr
  /-- `IncompatibleBinningError(file, binning, f_binning)` from
  `Observation.check_binning`. -/
  | incompatibleBinning (file binning f_binning : List Char) : PyErr
deriving DecidableEq, Repr

/-- A master-frame file in the calibration store: its filename and the
`DATE-OBS` creation time read from its header (seconds, as an integer). -/
structure Frame where
  name : List Char
  time : Int
  data : Rat
deriving DecidableEq, Repr

/-- The calibration store, indexed by the signed day offset of a date
partition relative to the target night: `store δ` is the directory listing
of the partition `δ` days after (`δ > 0`) or before (`δ < 0`) the target
night; a missing directory is the empty list. -/
def Store : Type := Int → List Frame

/-- `p` is a prefix of `s` (character lists). -/
def startsWithCL : List Char → List Char → Bool
  | [], _ => true
  | _ :: _, [] => false
  | p :: ps, c :: cs => p = c && startsWithCL ps cs

/-- Python's `p in s` on strings: `p` occurs contiguously inside `s`. -/
def substrCL : List Char → List Char → Bool
  | p, [] => p.isEmpty
  | p, c :: cs => startsWithCL p (c :: cs) || substrCL p cs

/-- `all(req in filename for req in requirements)`: every requirement
string is a substring of the filename. -/
def matchesReqs (reqs : List (List Char)) (name : List Char) : Bool :=
  reqs.all (fun r => substrCL r name)

/-- One directory scan of `get_closest_master`: the files of partition `δ`
satisfying the filename requirements, each paired with the `days_off`
value (`δ`) recorded alongside it in `potential_files`. -/
def scanPartition (store : Store) (reqs : List (List Char)) (δ : Int) :
    List (Frame × Int) :=
  ((store δ).filter (fun f => matchesReqs reqs f.name)).map (fun f => (f, δ))

/-- The candidates gathered by one iteration of the `while` loop of
`get_closest_master` at search radius `d`: the future partition is scanned
first, then the past partition (both appended to the pool). -/
def radiusPool (store : Store) (reqs : List (List Char)) (d : Nat) :
    List (Frame × Int) :=
  scanPartition store reqs (d : Int) ++ scanPartition store reqs (-(d : Int))

/-- `min(xs, key=key)` on the non-empty list `x :: xs`: the first element
attaining the minimal key, as Python's `min` returns. -/
def pyMinBy {α : Type} (key : α → Nat) (x : α) (xs : List α) : α :=
  xs.foldl (fun acc y => if key y < key acc then y else acc) x

/-- The `while len(potential_files) == 0` loop of `get_closest_master`
(identical in `controller/fits_utils_ct.py` and
`BlaauwPipe/blaauwpipe.py`).  One iteration scans radius `d` (future then
past), increments `days_off`, and raises `SuitableMasterMissingError` when
the incremented value exceeds `max_days_off` — note this raise fires even
when the scan at radius `d` just found candidates.  The loop is embedded
with explicit fuel; callers pass `fuel = maxD`, which together with the
start value `d = 1` keeps the invariant `d + fuel = maxD + 1`, so the
`fuel = 0` branch (made the same raise) is unreachable before the
`maxD < d + 1` raise triggers. -/
def searchLoop (store : Store) (reqs : List (List Char))
    (frame_type binning : List Char) (maxD : Nat) :
    Nat → Nat → Except PyErr (List (Frame × Int))
  | _, 0 => .error (.suitableMasterMissing frame_type binning)
  | d, fuel + 1 =>
    let pool := radiusPool store reqs d
    if maxD < d + 1 then .error (.suitableMasterMissing frame_type binning)
    else if pool.isEmpty then searchLoop store reqs frame_type binning maxD (d + 1) fuel
    else .ok pool

/-- `get_closest_master(target_datetime, working_dir, binning, frame_type,
fltr="", max_days_off=365)`: scan the same-night partition first; if it has
matching files pick the one whose creation time is closest to the target,
with recorded offset 0; otherwise widen the radius day by day via the
`while` loop and pick the closest among the candidates it returns.  The
`.ok []` branch is unreachable (the loop only returns non-empty pools). -/
def get_closest_master (store : Store) (target : Int)
    (binning frame_type fltr : List Char) (maxDaysOff : Nat) :
    Except PyErr (Frame × Int) :=
  let reqs := [frame_type, binning, fltr]
  match scanPartition store reqs 0 with
  | c :: cs => .ok (pyMinBy (fun p => (p.1.time - target).natAbs) c cs)
  | [] =>
    match searchLoop store reqs frame_type binning maxDaysOff 1 maxDaysOff with
    | .error e => .error e
    | .ok [] => .error (.suitableMasterMissing frame_type binning)
    | .ok (c :: cs) => .ok (pyMinBy (fun p => (p.1.time - target).natAbs) c cs)

/-- One of the three string-valued day-offset fields of a pending-log row:
an integer day offset, `"?"` (resolution failed entirely), or `"-"` (no
correction of that type applicable). -/
inductive Age where
  | days (n : Int) : Age
  | unknown : Age
  | na : Age
deriving DecidableEq, Repr

/-- One row of the pending log, at the level of the values the engine puts
into the `np.array` line: creation date and expiry date are day numbers
(the expiry is `none` when the field is `"-"` or otherwise unparseable). -/
structure PendingEntry where
  date : Int
  frame_type : List Char
  binning : List Char
  fltr : List Char
  biasAge : Age
  darkAge : Age
  flatAge : Age
  expires : Option Int
  path : List Char
deriving DecidableEq, Repr

/-- A raw light exposure: the header fields `reduce_img` reads
(`BINNING`, `FILTER`, `EXPTIME`, `DATE-OBS`), its pixel data (idealized as
one rational), and its path. -/
structure LightFile where
  binning : List Char
  fltr : List Char
  exptime : Rat
  time : Int
  data : Rat
  name : List Char
deriving DecidableEq, Repr

/-- The state `reduce_img` reads and writes: the pending ledger, the files
written into the reduced directory (savepath paired with pixel data), and
the `failed_reds` counter of the Reduction plugin. -/
structure ReduceState where
  ledger : List PendingEntry
  written : List (List Char × Rat)
  failedReds : Nat
deriving DecidableEq, Repr

/-- Which terminal branch `reduce_img` took, as reported to the console:
`failed` (`ps.updateFailed`, `SuitableMasterMissingError` caught),
`reducedStale` (`ps.updateWarning`, saved with a non-zero pending entry) or
`reducedClean` (`ps.updateDone`). -/
inductive ReduceOutcome where
  | failed : ReduceOutcome
  | reducedStale : ReduceOutcome
  | reducedClean : ReduceOutcome
deriving DecidableEq, Repr

/-- The `try` block of `reduce_img`: resolve master bias, dark and flat in
that order; the first `SuitableMasterMissingError` aborts the block. -/
def resolveThree (store : Store) (light : LightFile) (maxDaysOff : Nat) :
    Except PyErr ((Frame × Int) × (Frame × Int) × (Frame × Int)) := do
  let b ← get_closest_master store light.time light.binning
    ("master_bias".toList) [] maxDaysOff
  let d ← get_closest_master store light.time light.binning
    ("master_dark".toList) [] maxDaysOff
  let f ← get_closest_master store light.time light.binning
    ("master_flat".toList) light.fltr maxDaysOff
  return (b, d, f)

/-- The pending-log line appended when resolution fails inside
`reduce_img`: `[folder_date, "Light file", binning, fltr, "?", "?", "?",
"-", light_file]`. -/
def failEntry (folderDate : Int) (light : LightFile) : PendingEntry :=
  { date := folderDate, frame_type := "Light file".toList,
    binning := light.binning, fltr := light.fltr,
    biasAge := .unknown, darkAge := .unknown, flatAge := .unknown,
    expires := none, path := light.name }

/-- The pending-log line appended after a reduction whose `max_off` is
positive: the three signed offsets and the expiry date
`folder_date + max_off` days ahead. -/
def staleEntry (folderDate : Int) (light : LightFile)
    (bias_off dark_off flat_off : Int) (max_off : Nat) : PendingEntry :=
  { date := folderDate, frame_type := "Light file".toList,
    binning := light.binning, fltr := light.fltr,
    biasAge := .days bias_off, darkAge := .days dark_off,
    flatAge := .days flat_off,
    expires := some (folderDate + (max_off : Int)), path := light.name }

/-- `Reduction.reduce_img(obs, plp, light_file, max_days_off)`
(`BlaauwPipe/core/reduction.py`; `controller/fits_utils_ct.py` has the
same control flow).  On a resolution failure: one all-`?` pending line, no
reduced image, `failed_reds` incremented, the exception is swallowed.  On
success: the reduced image `(light - bias - dark*exptime) / flat` is
written, and a pending line is appended iff
`max_off = abs(max(bias_off, dark_off, flat_off))` is positive — note
`abs` of the `max`, exactly as the source computes it. -/
def reduce_img (store : Store) (folderDate : Int) (light : LightFile)
    (maxDaysOff : Nat) (st : ReduceState) : ReduceState × ReduceOutcome :=
  match resolveThree store light maxDaysOff with
  | .error _ =>
    ({ st with ledger := st.ledger ++ [failEntry folderDate light],
               failedReds := st.failedReds + 1 }, .failed)
  | .ok ((mbias, bias_off), (mdark, dark_off), (mflat, flat_off)) =>
    let hdu_data_red :=
      (light.data - mbias.data - mdark.data * light.exptime) / mflat.data
    let st1 := { st with written := st.written ++ [(light.name, hdu_data_red)] }
    let max_off := (max bias_off (max dark_off flat_off)).natAbs
    if 0 < max_off then
      ({ st1 with
          ledger := st1.ledger ++
            [staleEntry folderDate light bias_off dark_off flat_off max_off],
          failedReds := st1.failedReds + 1 }, .reducedStale)
    else (st1, .reducedClean)

/-- A Master Frame Builder or Reduction Engine call made by the retry pass
(`rerun_pending` in `controller/pending_ct.py`). -/
inductive RerunCall where
  | reduceImg (path : List Char) (maxDaysOff : Nat) : RerunCall
  | recreateMdark (path : List Char) : RerunCall
  | recreateMflat (path : List Char) : RerunCall
deriving DecidableEq, Repr

/-- `abs(max(int(bias_off), int(dark_off), int(flat_off)))` with the
`ValueError` fallback to 365: only when all three offset fields are
integer strings is the tightened horizon used. -/
def entryMaxDaysOff (e : PendingEntry) : Nat :=
  match e.biasAge, e.darkAge, e.flatAge with
  | .days b, .days d, .days f => (max b (max d f)).natAbs
  | _, _, _ => 365

/-- The dispatch part of one `rerun_pending` loop iteration, after the
expiry check: `"Light file"` re-invokes the Reduction Engine with the
recomputed horizon, `"Flat file"`/`"Dark file"` re-invoke the Master Frame
Builder; any other frame type does nothing. -/
def rerunDispatch (e : PendingEntry) : List RerunCall :=
  if e.frame_type = "Light file".toList then
    [RerunCall.reduceImg e.path (entryMaxDaysOff e)]
  else
    (if e.frame_type = "Flat file".toList then
      [RerunCall.recreateMflat e.path]
    else []) ++
    (if e.frame_type = "Dark file".toList then
      [RerunCall.recreateMdark e.path]
    else [])

/-- One `rerun_pending` loop iteration (`controller/pending_ct.py`): if
the expiry field parses as a date (`expires = some d`) and lies strictly
before the present date, the entry is skipped (`continue`) — no call is
made; otherwise it is dispatched. -/
def rerunEntry (present : Int) (e : PendingEntry) : List RerunCall :=
  match e.expires with
  | some d => if d < present then [] else rerunDispatch e
  | none => rerunDispatch e

/-- `rerun_pending`: the log is drained (rewritten to just its header) and
every data row is processed in order; this returns the Builder/Engine
calls the pass makes. -/
def rerun_pending (present : Int) (entries : List PendingEntry) :
    List RerunCall :=
  entries.flatMap (rerunEntry present)

/-- `", ".join(fields)`: how `np.savetxt(..., delimiter=", ", fmt="%s")`
renders one row of string fields as a line of the pending-log file. -/
def joinFields : List (List Char) → List Char
  | [] => []
  | [f] => f
  | f :: g :: rest => f ++ ',' :: ' ' :: joinFields (g :: rest)

/-- How `csv.reader(f, delimiter=",")` parses one quote-free line: split
on every `','` (the reader does not strip the space written after each
comma). -/
def splitOnComma : List Char → List (List Char)
  | [] => [[]]
  | c :: rest =>
    match splitOnComma rest with
    | [] => [[]]
    | f :: fs => if c = ',' then [] :: f :: fs else (c :: f) :: fs

/-- The header row written on first use of the pending log. -/
def pendingHeaderFields : List (List Char) :=
  ["Date".toList, "Frame type".toList, "Binning".toList, "Filter".toList,
   "BIAS-AGE".toList, "DARK-AGE".toList, "FLAT-AGE".toList,
   "Expires".toList, "Path".toList]

/-- `append_pending_log(new_line)`: the file (a list of lines, `none` when
it does not exist yet) gets the header on first use, then the new row,
each rendered with the `", "` delimiter. -/
def append_pending_log (file : Option (List (List Char)))
    (new_line : List (List Char)) : List (List Char) :=
  match file with
  | none => [joinFields pendingHeaderFields, joinFields new_line]
  | some lines => lines ++ [joinFields new_line]

/-- `read_pending_log()`: parse every line (header included) with
`csv.reader(..., delimiter=",")`. -/
def read_pending_log (lines : List (List Char)) : List (List (List Char)) :=
  lines.map splitOnComma

/-- An exposure file fed to the cluster grouper: an identifier standing
for its path (paths of distinct files are distinct) and its `DATE-OBS`
creation time in seconds. -/
structure FFile where
  id : Nat
  time : Int
deriving DecidableEq, Repr

/-- Stable insertion of a file into a time-sorted list: equal creation
times keep their relative order, as Python's stable `sorted` does. -/
def insertByTime (x : FFile) : List FFile → List FFile
  | [] => [x]
  | y :: ys => if x.time ≤ y.time then x :: y :: ys else y :: insertByTime x ys

/-- `sorted(files, key=creation_time)`: stable sort by creation time (any
two stable sorts by the same key agree, so insertion sort embeds Python's
stable mergesort faithfully). -/
def sortByTime : List FFile → List FFile
  | [] => []
  | x :: xs => insertByTime x (sortByTime xs)

/-- The index of `x` in `l` (`l.index(x)` for an `x` known to occur). -/
def pyIndex (x : FFile) : List FFile → Nat
  | [] => 0
  | y :: ys => if x = y then 0 else pyIndex x ys + 1

/-- The `step_inds` accumulation of `get_file_clusters`: walk the sorted
list, and whenever a file's creation time exceeds the previous one's by
more than `step` seconds record `files.index(file)` — an index into the
ORIGINAL, possibly unsorted, argument list. -/
def stepIndsAux (files : List FFile) (step : Int) :
    Int → List FFile → List Nat
  | _, [] => []
  | prev, f :: rest =>
    if step < f.time - prev then
      pyIndex f files :: stepIndsAux files step f.time rest
    else stepIndsAux files step f.time rest

/-- `l[a:b]` for `0 ≤ a, b`: Python slicing (empty when `b ≤ a`). -/
def pySlice (l : List FFile) (a b : Nat) : List FFile :=
  (l.drop a).take (b - a)

/-- The middle clusters `files_sorted[step_inds[ind]:step_inds[ind+1]]`
for consecutive pairs of recorded step indices. -/
def adjacentSlices (fs : List FFile) : List Nat → List (List FFile)
  | a :: b :: rest => pySlice fs a b :: adjacentSlices fs (b :: rest)
  | _ => []

/-- Grouping of the sorted list once `step_inds` is non-empty: the head
slice, the middle slices, and the tail from the last step index. -/
def clustersFromInds (fs : List FFile) (inds : List Nat) :
    List (List FFile) :=
  match inds with
  | [] => [fs]
  | i0 :: rest =>
    pySlice fs 0 i0 :: (adjacentSlices fs (i0 :: rest) ++
      [fs.drop ((i0 :: rest).getLastD 0)])

/-- `get_file_clusters(files, step=3600)` from
`controller/fits_utils_ct.py`.  The files are sorted by creation time, but
the reference time seeding the walk is `files[0]` of the ORIGINAL list
(an `IndexError` on an empty list) and the recorded split indices are
`files.index(file)` — also into the original list. -/
def get_file_clusters (files : List FFile) (step : Int) :
    Except PyErr (List (List FFile)) :=
  let files_sorted := sortByTime files
  match files with
  | [] => .error .indexError
  | f0 :: _ =>
    let step_inds := stepIndsAux files step f0.time files_sorted
    match step_inds with
    | [] => .ok [files_sorted]
    | i0 :: rest => .ok (clustersFromInds files_sorted (i0 :: rest))

/-- A bias exposure as `Observation.create_master_bias` sees it: its path,
its `BINNING` header string, and its pixel array. -/
structure BiasFile where
  name : List Char
  binning : List Char
  data : List (List Rat)
deriving DecidableEq, Repr

/-- The cached master-frame attributes of an `Observation` object
(`self.masterBias`, `self.masterDark`, `self.masterFlats`). -/
structure ObsState where
  masterBias : Option (List (List Rat))
  masterDark : Option (List (List Rat))
  masterFlats : Option (List (List Rat))
deriving DecidableEq, Repr

/-- The message of `IncompatibleBinningError(file, binning, f_binning)`:
`f"{file}: expected {binning} binning but found {f_binning} binning"`. -/
def ibeMessage (file binning f_binning : List Char) : List Char :=
  file ++ ": expected ".toList ++ binning ++
    " binning but found ".toList ++ f_binning ++ " binning".toList

/-- The comparison loop of `Observation.check_binning`, with the binning
of `files[0]` as the expected value. -/
def checkBinningLoop (binning : List Char) : List BiasFile → Except PyErr Unit
  | [] => .ok ()
  | f :: rest =>
    if f.binning ≠ binning then
      .error (.incompatibleBinning f.name binning f.binning)
    else checkBinningLoop binning rest

/-- `Observation.check_binning(files)`: read `files[0]`'s binning (an
`IndexError` when there are no files), then compare every file against it,
raising `IncompatibleBinningError` at the first mismatch. -/
def check_binning : List BiasFile → Except PyErr Unit
  | [] => .error .indexError
  | f0 :: rest => checkBinningLoop f0.binning (f0 :: rest)

/-- Insertion into a sorted list of rationals, for the median. -/
def ratInsert (x : Rat) : List Rat → List Rat
  | [] => [x]
  | y :: ys => if x ≤ y then x :: y :: ys else y :: ratInsert x ys

/-- Sort a list of rationals. -/
def ratSort : List Rat → List Rat
  | [] => []
  | x :: xs => ratInsert x (ratSort xs)

/-- `np.median` of a list of values: middle element of the sorted list,
or the mean of the two middle elements for an even count. -/
def medianRat (l : List Rat) : Rat :=
  let s := ratSort l
  let n := s.length
  if n % 2 = 1 then s.getD (n / 2) 0
  else (s.getD (n / 2 - 1) 0 + s.getD (n / 2) 0) / 2

/-- `np.median(np.dstack(frames), axis=2)`: the per-pixel median across a
stack of equally-shaped matrices. -/
def pixelMedian (frames : List (List (List Rat))) : List (List Rat) :=
  match frames with
  | [] => []
  | f :: _ =>
    f.mapIdx (fun i row =>
      row.mapIdx (fun j _ =>
        medianRat (frames.map (fun g => (g.getD i []).getD j 0))))

/-- `Observation.create_master_bias(biasFiles)`: `check_binning` first —
its exception propagates and nothing else happens (no stacking, the cached
attributes untouched); on success the stack's per-pixel median (or the
single frame itself for one file) is computed, cached in
`self.masterBias`, and returned. -/
def create_master_bias (files : List BiasFile) (st : ObsState) :
    Except PyErr (List (List Rat)) × ObsState :=
  match check_binning files with
  | .error e => (.error e, st)
  | .ok () =>
    let masterBias :=
      if 1 < files.length then pixelMedian (files.map (fun f => f.data))
      else ((files.map (fun f => f.data)).getD 0 [])
    (.ok masterBias, { st with masterBias := some masterBias })

/-! Supporting lemmas. -/

theorem startsWithCL_self_append (p q : List Char) :
    startsWithCL p (p ++ q) = true := by
  induction p with
  | nil => rfl
  | cons c cs ih => simp [startsWithCL, ih]

theorem substrCL_self_append (p q : List Char) :
    substrCL p (p ++ q) = true := by
  cases hp : p ++ q with
  | nil =>
    have : p = [] := by
      cases p with
      | nil => rfl
      | cons c cs => simp at hp
    simp [this, substrCL, List.isEmpty]
  | cons c cs =>
    rw [substrCL, ← hp, startsWithCL_self_append]
    simp

theorem scanPartition_mem {store : Store} {reqs : List (List Char)}
    {δ : Int} {f : Frame} {off : Int}
    (h : (f, off) ∈ scanPartition store reqs δ) :
    f ∈ store δ ∧ matchesReqs reqs f.name = true ∧ off = δ := by
  simp only [scanPartition, List.mem_map, List.mem_filter] at h
  obtain ⟨g, ⟨hg, hm⟩, heq⟩ := h
  cases heq
  exact ⟨hg, hm, rfl⟩

theorem pyMinBy_eq_cons {α : Type} (key : α → Nat) (x y : α) (ys : List α) :
    pyMinBy key x (y :: ys) =
      pyMinBy key (if key y < key x then y else x) ys := rfl

theorem pyMinBy_mem {α : Type} (key : α → Nat) (x : α) (xs : List α) :
    pyMinBy key x xs ∈ x :: xs := by
  induction xs generalizing x with
  | nil => simp [pyMinBy]
  | cons y ys ih =>
    rw [pyMinBy_eq_cons]
    by_cases h : key y < key x
    · simp only [h, if_true]
      have := ih y
      rcases List.mem_cons.mp this with h1 | h1
      · simp [h1]
      · simp [List.mem_cons, h1]
    · simp only [h, if_false]
      have := ih x
      rcases List.mem_cons.mp this with h1 | h1
      · simp [h1]
      · simp [List.mem_cons, h1]

theorem pyMinBy_min {α : Type} (key : α → Nat) (x : α) (xs : List α) :
    ∀ y ∈ x :: xs, key (pyMinBy key x xs) ≤ key y := by
  induction xs generalizing x with
  | nil =>
    intro y hy
    have hx : y = x := by simpa using hy
    rw [hx]
    simp [pyMinBy]
  | cons z zs ih =>
    intro y hy
    rw [pyMinBy_eq_cons]
    have hw1 : key (if key z < key x then z else x) ≤ key x := by
      by_cases h : key z < key x
      · simp only [h, if_true]
        exact le_of_lt h
      · simp only [h, if_false]
        exact le_refl _
    have hw2 : key (if key z < key x then z else x) ≤ key z := by
      by_cases h : key z < key x
      · simp only [h, if_true]
        exact le_refl _
      · simp only [h, if_false]
        exact le_of_not_lt h
    have hmin : key (pyMinBy key (if key z < key x then z else x) zs) ≤
        key (if key z < key x then z else x) :=
      ih _ _ (List.mem_cons_self _ _)
    rcases List.mem_cons.mp hy with h1 | h1
    · rw [h1]
      exact le_trans hmin hw1
    · rcases List.mem_cons.mp h1 with h2 | h2
      · rw [h2]
        exact le_trans hmin hw2
      · exact ih _ y (List.mem_cons.mpr (Or.inr h2))

theorem searchLoop_ok_spec (store : Store) (reqs : List (List Char))
    (ft bn : List Char) (maxD : Nat) :
    ∀ fuel d pool, searchLoop store reqs ft bn maxD d fuel = .ok pool →
      ∃ d0, d ≤ d0 ∧ d0 + 1 ≤ maxD ∧ pool = radiusPool store reqs d0 ∧
        pool ≠ [] ∧ ∀ k, d ≤ k → k < d0 → radiusPool store reqs k = [] := by
  intro fuel
  induction fuel with
  | zero =>
    intro d pool h
    simp [searchLoop] at h
  | succ n ih =>
    intro d pool h
    simp only [searchLoop] at h
    by_cases hc : maxD < d + 1
    · simp [hc] at h
    · simp only [hc, if_false] at h
      by_cases he : (radiusPool store reqs d).isEmpty
      · simp only [he, if_true] at h
        obtain ⟨d0, hd0, hmax, hpool, hne, hempty⟩ := ih (d + 1) pool h
        refine ⟨d0, by omega, hmax, hpool, hne, ?_⟩
        intro k hk1 hk2
        rcases Nat.eq_or_lt_of_le hk1 with heq | hlt
        · rw [← heq]
          exact List.isEmpty_iff.mp he
        · exact hempty k hlt hk2
      · simp only [he, if_false] at h
        injection h with h
        exact ⟨d, le_refl d, by omega, h.symm, by
          rw [← h]
          exact fun hcon => he (by rw [hcon]; rfl), by omega⟩

theorem searchLoop_error_of_empty (store : Store) (reqs : List (List Char))
    (ft bn : List Char) (maxD : Nat) :
    ∀ fuel d, (∀ k, d ≤ k → k < maxD → radiusPool store reqs k = []) →
      searchLoop store reqs ft bn maxD d fuel =
        .error (.suitableMasterMissing ft bn) := by
  intro fuel
  induction fuel with
  | zero =>
    intro d _
    rfl
  | succ n ih =>
    intro d h
    simp only [searchLoop]
    by_cases hc : maxD < d + 1
    · simp [hc]
    · have hd : d < maxD := by omega
      have hdempty : radiusPool store reqs d = [] := h d (le_refl d) hd
      simp only [hc, if_false, hdempty, List.isEmpty_nil, if_true]
      exact ih (d + 1) (fun k hk1 hk2 => h k (by omega) hk2)

theorem searchLoop_ok_of_hit (store : Store) (reqs : List (List Char))
    (ft bn : List Char) (maxD : Nat) :
    ∀ fuel d d0, d ≤ d0 → d0 < d + fuel → d0 + 1 ≤ maxD →
      (∀ k, d ≤ k → k < d0 → radiusPool store reqs k = []) →
      radiusPool store reqs d0 ≠ [] →
      searchLoop store reqs ft bn maxD d fuel =
        .ok (radiusPool store reqs d0) := by
  intro fuel
  induction fuel with
  | zero =>
    intro d d0 h1 h2 _ _ _
    omega
  | succ n ih =>
    intro d d0 h1 h2 h3 hemp hne
    simp only [searchLoop]
    have hc : ¬ (maxD < d + 1) := by omega
    by_cases hd : d = d0
    · subst hd
      have : ¬ (radiusPool store reqs d).isEmpty := by
        intro hcon
        exact hne (List.isEmpty_iff.mp hcon)
      simp [hc, this]
    · have hdlt : d < d0 := lt_of_le_of_ne h1 hd
      have hdempty : radiusPool store reqs d = [] :=
        hemp d (le_refl d) hdlt
      simp only [hc, if_false, hdempty, List.isEmpty_nil, if_true]
      exact ih (d + 1) d0 (by omega) (by omega) h3
        (fun k hk1 hk2 => hemp k (by omega) hk2) hne

theorem radiusPool_mem {store : Store} {reqs : List (List Char)} {d : Nat}
    {f : Frame} {off : Int} (h : (f, off) ∈ radiusPool store reqs d) :
    (off = (d : Int) ∨ off = -(d : Int)) ∧
      (f, off) ∈ scanPartition store reqs off := by
  rcases List.mem_append.mp h with h1 | h1
  · obtain ⟨_, _, hoff⟩ := scanPartition_mem h1
    subst hoff
    exact ⟨Or.inl rfl, h1⟩
  · obtain ⟨_, _, hoff⟩ := scanPartition_mem h1
    subst hoff
    exact ⟨Or.inr rfl, h1⟩

theorem gcm_ok_spec {store : Store} {target : Int} {bn ft fl : List Char}
    {maxD : Nat} {f : Frame} {off : Int}
    (h : get_closest_master store target bn ft fl maxD = .ok (f, off)) :
    ∃ pool, (f, off) ∈ pool ∧
      (∀ p ∈ pool, (f.time - target).natAbs ≤ (p.1.time - target).natAbs) ∧
      ((scanPartition store [ft, bn, fl] 0 ≠ [] ∧
          pool = scanPartition store [ft, bn, fl] 0) ∨
       (scanPartition store [ft, bn, fl] 0 = [] ∧
         ∃ d0 : Nat, 1 ≤ d0 ∧ d0 + 1 ≤ maxD ∧
           (∀ k, 1 ≤ k → k < d0 → radiusPool store [ft, bn, fl] k = []) ∧
           pool = radiusPool store [ft, bn, fl] d0)) := by
  simp only [get_closest_master] at h
  cases h0 : scanPartition store [ft, bn, fl] 0 with
  | cons c cs =>
    rw [h0] at h
    injection h with h
    refine ⟨c :: cs, ?_, ?_, Or.inl ⟨by simp, rfl⟩⟩
    · rw [← h]
      exact pyMinBy_mem _ c cs
    · intro p hp
      have := pyMinBy_min (fun p => (p.1.time - target).natAbs) c cs p hp
      rw [h] at this
      exact this
  | nil =>
    rw [h0] at h
    cases hs : searchLoop store [ft, bn, fl] ft bn maxD 1 maxD with
    | error e => rw [hs] at h; cases h
    | ok pool =>
      rw [hs] at h
      obtain ⟨d0, hd0, hmax, hpool, hne, hempty⟩ :=
        searchLoop_ok_spec store [ft, bn, fl] ft bn maxD maxD 1 pool hs
      cases hp : pool with
      | nil => rw [hp] at hne; exact absurd rfl hne
      | cons c cs =>
        rw [hp] at h
        injection h with h
        refine ⟨pool, ?_, ?_, Or.inr ⟨rfl, d0, hd0, hmax, hempty, hpool⟩⟩
        · rw [hp, ← h]
          exact pyMinBy_mem _ c cs
        · intro p hmem
          rw [hp] at hmem
          have := pyMinBy_min (fun p => (p.1.time - target).natAbs) c cs p hmem
          rw [h] at this
          exact this

theorem gcm_error_of_empty (store : Store) (target : Int)
    (bn ft fl : List Char) (maxD : Nat)
    (h0 : scanPartition store [ft, bn, fl] 0 = [])
    (hemp : ∀ k, 1 ≤ k → k < maxD → radiusPool store [ft, bn, fl] k = []) :
    get_closest_master store target bn ft fl maxD =
      .error (.suitableMasterMissing ft bn) := by
  simp only [get_closest_master, h0]
  rw [searchLoop_error_of_empty store [ft, bn, fl] ft bn maxD maxD 1 hemp]

theorem gcm_ok_of_hit (store : Store) (target : Int) (bn ft fl : List Char)
    (maxD d0 : Nat)
    (h0 : scanPartition store [ft, bn, fl] 0 = [])
    (hd0 : 1 ≤ d0) (hmax : d0 + 1 ≤ maxD)
    (hemp : ∀ k, 1 ≤ k → k < d0 → radiusPool store [ft, bn, fl] k = [])
    (hne : radiusPool store [ft, bn, fl] d0 ≠ []) :
    ∃ f off, get_closest_master store target bn ft fl maxD = .ok (f, off) ∧
      off.natAbs = d0 := by
  have hloop := searchLoop_ok_of_hit store [ft, bn, fl] ft bn maxD maxD 1 d0
    hd0 (by omega) hmax (fun k hk1 hk2 => hemp k hk1 hk2) hne
  cases hp : radiusPool store [ft, bn, fl] d0 with
  | nil => exact absurd hp hne
  | cons c cs =>
    rw [hp] at hloop
    refine ⟨(pyMinBy (fun p => (p.1.time - target).natAbs) c cs).1,
      (pyMinBy (fun p => (p.1.time - target).natAbs) c cs).2, ?_, ?_⟩
    · simp only [get_closest_master, h0, hloop]
    · have hm := pyMinBy_mem (fun p => (p.1.time - target).natAbs) c cs
      rw [← hp] at hm
      obtain ⟨hoff, _⟩ := radiusPool_mem
        (show ((pyMinBy (fun p => (p.1.time - target).natAbs) c cs).1,
          (pyMinBy (fun p => (p.1.time - target).natAbs) c cs).2) ∈
            radiusPool store [ft, bn, fl] d0 from hm)
      rcases hoff with h | h
      · rw [h]
        exact Int.natAbs_ofNat d0
      · rw [h]
        rw [Int.natAbs_neg]
        exact Int.natAbs_ofNat d0

/-! Claim theorems for the Calibration Resolver. -/

/-- C10: every successful `get_closest_master` call returns a path whose
filename contains the requested frame type, binning and filter strings as
substrings, and a day offset of magnitude at most `max_days_off`. -/
theorem c10_result_matches_requirements (store : Store) (target : Int)
    (binning frame_type fltr : List Char) (maxDaysOff : Nat)
    (f : Frame) (off : Int)
    (h : get_closest_master store target binning frame_type fltr maxDaysOff =
      .ok (f, off)) :
    substrCL frame_type f.name = true ∧ substrCL binning f.name = true ∧
      substrCL fltr f.name = true ∧ off.natAbs ≤ maxDaysOff := by
  obtain ⟨pool, hmem, _, hcase⟩ := gcm_ok_spec h
  have hscan : (f, off) ∈
      scanPartition store [frame_type, binning, fltr] off ∧
      off.natAbs ≤ maxDaysOff := by
    rcases hcase with ⟨_, hpool⟩ | ⟨_, d0, _, hmax, _, hpool⟩
    · rw [hpool] at hmem
      have h2 := scanPartition_mem hmem
      rw [h2.2.2]
      rw [h2.2.2] at hmem
      exact ⟨hmem, by simp⟩
    · rw [hpool] at hmem
      obtain ⟨hoff, hsc⟩ := radiusPool_mem hmem
      refine ⟨hsc, ?_⟩
      rcases hoff with h1 | h1
      · rw [h1, Int.natAbs_ofNat]
        omega
      · rw [h1, Int.natAbs_neg, Int.natAbs_ofNat]
        omega
  obtain ⟨hsc, hbound⟩ := hscan
  obtain ⟨_, hm, _⟩ := scanPartition_mem hsc
  simp only [matchesReqs, List.all_cons, List.all_nil, Bool.and_eq_true,
    Bool.and_true] at hm
  exact ⟨hm.1, hm.2.1, hm.2.2, hbound⟩

/-- The master frame of the C10 witness store, one day in the future. -/
def frameC10 : Frame :=
  { name := "master_flat3x3RC1.fits".toList, time := 86400, data := 1 }

/-- A store holding `frameC10` only in the partition one day ahead. -/
def storeC10 : Store := fun δ => if δ = 1 then [frameC10] else []

/-- Witness for C10 at a concrete store. -/
theorem c10_result_witness :
    substrCL ("master_flat".toList) frameC10.name = true ∧
      substrCL ("3x3".toList) frameC10.name = true ∧
      substrCL ("R".toList) frameC10.name = true ∧
      (1 : Int).natAbs ≤ 5 :=
  c10_result_matches_requirements storeC10 0 ("3x3".toList)
    ("master_flat".toList) ("R".toList) 5 frameC10 1 rfl

/-- The day +1 master bias of the C1 scenario. -/
def framePlus1 : Frame :=
  { name := "master_bias2x2C1.fits".toList, time := 86400, data := 1 }

/-- The day −2 master bias of the C1 scenario. -/
def frameMinus2 : Frame :=
  { name := "master_bias2x2C2.fits".toList, time := -172800, data := 2 }

/-- The C1 scenario store: matching masters only at partitions day −2 and
day +1 relative to the target night. -/
def storeC1scn : Store := fun δ =>
  if δ = 1 then [framePlus1] else if δ = -2 then [frameMinus2] else []

/-- C1: on every successful resolution the returned frame minimizes the
absolute time difference to the target over the candidate pool of the
first non-empty search radius, the day offset is 0 for a same-night match
and ±d for a match in the partition d days after/before the target night
(the frame indeed lies in the partition the signed offset points at); and
in the concrete −2/+1 scenario with `max_day_offset = 5` the day +1 frame
is returned with signed offset 1. -/
theorem c1_resolver_minimal_and_signed :
    (∀ (store : Store) (target : Int) (bn ft fl : List Char) (maxD : Nat)
      (f : Frame) (off : Int),
      get_closest_master store target bn ft fl maxD = .ok (f, off) →
      ∃ pool, (f, off) ∈ pool ∧
        (∀ p ∈ pool, (f.time - target).natAbs ≤ (p.1.time - target).natAbs) ∧
        ((scanPartition store [ft, bn, fl] 0 ≠ [] ∧
            pool = scanPartition store [ft, bn, fl] 0 ∧ off = 0) ∨
         (scanPartition store [ft, bn, fl] 0 = [] ∧
           ∃ d0 : Nat, 1 ≤ d0 ∧
             (∀ k, 1 ≤ k → k < d0 → radiusPool store [ft, bn, fl] k = []) ∧
             pool = radiusPool store [ft, bn, fl] d0 ∧
             (off = (d0 : Int) ∨ off = -(d0 : Int)) ∧
             (f, off) ∈ scanPartition store [ft, bn, fl] off))) ∧
    get_closest_master storeC1scn 0 ("2x2".toList) ("master_bias".toList)
      [] 5 = .ok (framePlus1, 1) := by
  constructor
  · intro store target bn ft fl maxD f off h
    obtain ⟨pool, hmem, hmin, hcase⟩ := gcm_ok_spec h
    refine ⟨pool, hmem, hmin, ?_⟩
    rcases hcase with ⟨hne, hpool⟩ | ⟨h0, d0, hd0, _, hemp, hpool⟩
    · refine Or.inl ⟨hne, hpool, ?_⟩
      rw [hpool] at hmem
      exact (scanPartition_mem hmem).2.2
    · rw [hpool] at hmem
      obtain ⟨hoff, hsc⟩ := radiusPool_mem hmem
      exact Or.inr ⟨h0, d0, hd0, hemp, hpool, hoff, hsc⟩
  · rfl

/-- Witness for C1: the universal part applied to the −2/+1 scenario. -/
theorem c1_resolver_witness :
    ∃ pool, (framePlus1, (1 : Int)) ∈ pool ∧
      (∀ p ∈ pool,
        (framePlus1.time - 0).natAbs ≤ (p.1.time - 0).natAbs) ∧
      ((scanPartition storeC1scn
          ["master_bias".toList, "2x2".toList, []] 0 ≠ [] ∧
          pool = scanPartition storeC1scn
            ["master_bias".toList, "2x2".toList, []] 0 ∧ (1 : Int) = 0) ∨
       (scanPartition storeC1scn
          ["master_bias".toList, "2x2".toList, []] 0 = [] ∧
         ∃ d0 : Nat, 1 ≤ d0 ∧
           (∀ k, 1 ≤ k → k < d0 →
             radiusPool storeC1scn
               ["master_bias".toList, "2x2".toList, []] k = []) ∧
           pool = radiusPool storeC1scn
             ["master_bias".toList, "2x2".toList, []] d0 ∧
           ((1 : Int) = (d0 : Int) ∨ (1 : Int) = -(d0 : Int)) ∧
           (framePlus1, (1 : Int)) ∈ scanPartition storeC1scn
             ["master_bias".toList, "2x2".toList, []] 1)) :=
  c1_resolver_minimal_and_signed.1 storeC1scn 0 ("2x2".toList)
    ("master_bias".toList) [] 5 framePlus1 1
    c1_resolver_minimal_and_signed.2

/-- The only matching master of the C2 counterexample store, at partition
distance exactly 1. -/
def frameC2 : Frame :=
  { name := "master_bias2x2C1.fits".toList, time := 86400, data := 1 }

/-- A store whose nearest matching master sits at partition distance
exactly 1 (the future partition one day ahead). -/
def storeC2cex : Store := fun δ => if δ = 1 then [frameC2] else []

/-- C2 counterexample: with `max_days_off = 1` and the nearest matching
master at distance exactly 1, the resolver raises
`SuitableMasterMissingError` instead of returning that master — the
claim's success-at-exactly-`d` half is false (`days_off` is incremented
before the horizon check fires). -/
theorem c2_counterexample :
    radiusPool storeC2cex
      ["master_bias".toList, "2x2".toList, []] 1 ≠ [] ∧
    get_closest_master storeC2cex 0 ("2x2".toList) ("master_bias".toList)
      [] 1 =
      .error (.suitableMasterMissing ("master_bias".toList)
        ("2x2".toList)) :=
  ⟨by decide, rfl⟩

/-- C2 amended: with horizon `max_days_off = d` the resolver raises
whenever no matching master exists at the same night or at any radius
strictly below `d` — in particular both when the nearest frame is at
distance `d + 1` and when it is at exactly distance `d` — and it returns
successfully (with offset magnitude `d0`) whenever the first non-empty
radius `d0` satisfies `d0 + 1 ≤ d`. -/
theorem c2_horizon_boundary_amended (store : Store) (target : Int)
    (bn ft fl : List Char) (d : Nat) :
    ((scanPartition store [ft, bn, fl] 0 = []) →
      (∀ k, 1 ≤ k → k < d → radiusPool store [ft, bn, fl] k = []) →
      get_closest_master store target bn ft fl d =
        .error (.suitableMasterMissing ft bn)) ∧
    (∀ d0 : Nat, (scanPartition store [ft, bn, fl] 0 = []) → 1 ≤ d0 →
      d0 + 1 ≤ d →
      (∀ k, 1 ≤ k → k < d0 → radiusPool store [ft, bn, fl] k = []) →
      radiusPool store [ft, bn, fl] d0 ≠ [] →
      ∃ f off, get_closest_master store target bn ft fl d = .ok (f, off) ∧
        off.natAbs = d0) :=
  ⟨fun h0 hemp => gcm_error_of_empty store target bn ft fl d h0 hemp,
   fun d0 h0 hd0 hmax hemp hne =>
     gcm_ok_of_hit store target bn ft fl d d0 h0 hd0 hmax hemp hne⟩

/-- Witness for C2: the amended boundary at the concrete one-frame store —
horizon 1 raises although the frame sits at distance 1; horizon 2
succeeds with offset magnitude 1. -/
theorem c2_horizon_witness :
    get_closest_master storeC2cex 0 ("2x2".toList) ("master_bias".toList)
      [] 1 =
      .error (.suitableMasterMissing ("master_bias".toList)
        ("2x2".toList)) ∧
    (∃ f off,
      get_closest_master storeC2cex 0 ("2x2".toList) ("master_bias".toList)
        [] 2 = .ok (f, off) ∧ off.natAbs = 1) :=
  ⟨(c2_horizon_boundary_amended storeC2cex 0 ("2x2".toList)
      ("master_bias".toList) [] 1).1 (by decide)
      (fun k hk1 hk2 => by omega),
   (c2_horizon_boundary_amended storeC2cex 0 ("2x2".toList)
      ("master_bias".toList) [] 2).2 1 (by decide) (by decide) (by decide)
      (fun k hk1 hk2 => by omega) (by decide)⟩

/-! Claim theorems for the Reduction Engine and the pending ledger
(value level). -/

/-- The master bias of the C3 input, two days in the past. -/
def frameBiasM2 : Frame :=
  { name := "master_bias2x2C1.fits".toList, time := -172800, data := 3 }

/-- The same-night master dark of the C3 input. -/
def frameDark0 : Frame :=
  { name := "master_dark2x2C1.fits".toList, time := 100, data := 1 }

/-- The same-night master flat of the C3 input. -/
def frameFlat0 : Frame :=
  { name := "master_flat2x2RC1.fits".toList, time := 100, data := 1 }

/-- The C3 store: dark and flat available on the same night, the bias only
two days in the past. -/
def storeC3 : Store := fun δ =>
  if δ = 0 then [frameDark0, frameFlat0]
  else if δ = -2 then [frameBiasM2] else []

/-- The light exposure of the C3 failing input. -/
def lightC3 : LightFile :=
  { binning := "2x2".toList, fltr := "R".toList, exptime := 4, time := 0,
    data := 10, name := "light1.fits".toList }

/-- An empty initial reduction state. -/
def st0C3 : ReduceState := { ledger := [], written := [], failedReds := 0 }

/-- C3, evidence of the code bug: the three resolutions succeed with
offsets (−2, 0, 0), so `max(|bias_off|, |dark_off|, |flat_off|) = 2 > 0`
and the claim demands a PendingEntry; but the code computes
`abs(max(bias_off, dark_off, flat_off)) = abs(0) = 0`, writes the reduced
image and appends nothing to the ledger. -/
theorem c3_abs_max_skips_negative_offset :
    resolveThree storeC3 lightC3 365 =
      .ok ((frameBiasM2, -2), (frameDark0, 0), (frameFlat0, 0)) ∧
    0 < max ((-2 : Int)).natAbs (max ((0 : Int)).natAbs ((0 : Int)).natAbs) ∧
    (reduce_img storeC3 0 lightC3 365 st0C3).1.written.map Prod.fst =
      ["light1.fits".toList] ∧
    (reduce_img storeC3 0 lightC3 365 st0C3).1.ledger = [] ∧
    (reduce_img storeC3 0 lightC3 365 st0C3).2 = .reducedClean :=
  ⟨rfl, by decide, by decide, by decide, by decide⟩

/-- C8: whenever one of the three resolver calls raises
`SuitableMasterMissingError`, `reduce_img` writes nothing, appends exactly
one PendingEntry whose three offsets are all `?`, increments its failure
counter and reports the failed outcome — the exception never escapes. -/
theorem c8_missing_master_recovery (store : Store) (folderDate : Int)
    (light : LightFile) (maxD : Nat) (st : ReduceState) (err : PyErr)
    (h : resolveThree store light maxD = .error err) :
    reduce_img store folderDate light maxD st =
      ({ ledger := st.ledger ++ [failEntry folderDate light],
         written := st.written, failedReds := st.failedReds + 1 },
       .failed) ∧
    (failEntry folderDate light).biasAge = .unknown ∧
    (failEntry folderDate light).darkAge = .unknown ∧
    (failEntry folderDate light).flatAge = .unknown := by
  refine ⟨?_, rfl, rfl, rfl⟩
  simp only [reduce_img, h]

/-- A store with no master frames at all, for the C8 witness. -/
def storeC8 : Store := fun _ => []

/-- The light exposure of the C8 witness. -/
def lightC8 : LightFile :=
  { binning := "1x1".toList, fltr := "V".toList, exptime := 1, time := 0,
    data := 5, name := "lightC8.fits".toList }

/-- Witness for C8 at the empty store. -/
theorem c8_missing_master_witness :
    reduce_img storeC8 7 lightC8 3
        { ledger := [], written := [], failedReds := 0 } =
      ({ ledger := [] ++ [failEntry 7 lightC8], written := [],
         failedReds := 0 + 1 }, .failed) ∧
    (failEntry 7 lightC8).biasAge = .unknown ∧
    (failEntry 7 lightC8).darkAge = .unknown ∧
    (failEntry 7 lightC8).flatAge = .unknown :=
  c8_missing_master_recovery storeC8 7 lightC8 3
    { ledger := [], written := [], failedReds := 0 }
    (.suitableMasterMissing ("master_bias".toList) ("1x1".toList)) rfl

/-- C4: a drained ledger entry whose expiry date is set and strictly
before the current date is dropped by `rerun_pending` without any Master
Frame Builder or Reduction Engine call: its own contribution is empty and
the pass makes exactly the calls it would make without the entry. -/
theorem c4_expired_entry_dropped (present d : Int) (e : PendingEntry)
    (es1 es2 : List PendingEntry)
    (hset : e.expires = some d) (hpast : d < present) :
    rerunEntry present e = [] ∧
    rerun_pending present (es1 ++ e :: es2) =
      rerun_pending present (es1 ++ es2) := by
  have h1 : rerunEntry present e = [] := by
    simp [rerunEntry, hset, hpast]
  refine ⟨h1, ?_⟩
  simp [rerun_pending, List.flatMap_append, List.flatMap_cons, h1]

/-- A concrete expired light-frame entry for the C4 witness. -/
def entryC4 : PendingEntry :=
  { date := 10, frame_type := "Light file".toList,
    binning := "2x2".toList, fltr := "R".toList,
    biasAge := .days (-1), darkAge := .days 0, flatAge := .days 0,
    expires := some 11, path := "light1.fits".toList }

/-- A concrete unexpired entry surrounding the C4 witness entry. -/
def entryC4live : PendingEntry :=
  { date := 10, frame_type := "Dark file".toList,
    binning := "2x2".toList, fltr := [],
    biasAge := .days 1, darkAge := .na, flatAge := .na,
    expires := some 99, path := "master_dark2x2C1.fits".toList }

/-- Witness for C4: the expired entry contributes nothing at present day
12 and the pass equals the pass without it. -/
theorem c4_expired_entry_witness :
    rerunEntry 12 entryC4 = [] ∧
    rerun_pending 12 ([entryC4live] ++ entryC4 :: [entryC4live]) =
      rerun_pending 12 ([entryC4live] ++ [entryC4live]) :=
  c4_expired_entry_dropped 12 11 entryC4 [entryC4live] [entryC4live]
    rfl (by decide)

theorem checkBinningLoop_mismatch (binning : List Char) :
    ∀ l : List BiasFile, (∃ f ∈ l, f.binning ≠ binning) →
      ∃ fbad ∈ l, fbad.binning ≠ binning ∧
        checkBinningLoop binning l =
          .error (.incompatibleBinning fbad.name binning fbad.binning) := by
  intro l
  induction l with
  | nil =>
    rintro ⟨f, hf, _⟩
    simp at hf
  | cons g gs ih =>
    rintro ⟨f, hf, hneq⟩
    by_cases hg : g.binning ≠ binning
    · exact ⟨g, List.mem_cons_self g gs, hg, by simp [checkBinningLoop, hg]⟩
    · push_neg at hg
      have hf' : f ∈ gs := by
        rcases List.mem_cons.mp hf with h | h
        · rw [h] at hneq
          exact absurd hg hneq
        · exact h
      obtain ⟨fbad, hmem, hneq2, heq⟩ := ih ⟨f, hf', hneq⟩
      refine ⟨fbad, List.mem_cons.mpr (Or.inr hmem), hneq2, ?_⟩
      simpa [checkBinningLoop, hg] using heq

/-- C9: a cluster whose first exposure's binning differs from some member's
makes `create_master_bias` raise `IncompatibleBinningError` whose message
names the offending file, with no pixel data stacked and the cached
master-frame attributes of the Observation object untouched. -/
theorem c9_binning_mismatch_aborts (f0 : BiasFile) (rest : List BiasFile)
    (st : ObsState)
    (h : ∃ f ∈ f0 :: rest, f.binning ≠ f0.binning) :
    ∃ fbad ∈ f0 :: rest, fbad.binning ≠ f0.binning ∧
      create_master_bias (f0 :: rest) st =
        (.error (.incompatibleBinning fbad.name f0.binning fbad.binning),
          st) ∧
      substrCL fbad.name
        (ibeMessage fbad.name f0.binning fbad.binning) = true := by
  obtain ⟨fbad, hmem, hneq, heq⟩ :=
    checkBinningLoop_mismatch f0.binning (f0 :: rest) h
  refine ⟨fbad, hmem, hneq, ?_, ?_⟩
  · simp [create_master_bias, check_binning, heq]
  · simp only [ibeMessage, List.append_assoc]
    exact substrCL_self_append fbad.name _

/-- The first bias file of the C9 witness cluster. -/
def biasA : BiasFile :=
  { name := "biasA.fits".toList, binning := "1x1".toList,
    data := [[1, 2], [3, 4]] }

/-- The mismatching bias file of the C9 witness cluster. -/
def biasB : BiasFile :=
  { name := "biasB.fits".toList, binning := "2x2".toList,
    data := [[1]] }

/-- An Observation state with no cached master frames. -/
def obsStC9 : ObsState :=
  { masterBias := none, masterDark := none, masterFlats := none }

/-- Witness for C9 on a concrete two-file cluster. -/
theorem c9_binning_witness :
    ∃ fbad ∈ biasA :: [biasB], fbad.binning ≠ biasA.binning ∧
      create_master_bias (biasA :: [biasB]) obsStC9 =
        (.error (.incompatibleBinning fbad.name biasA.binning fbad.binning),
          obsStC9) ∧
      substrCL fbad.name
        (ibeMessage fbad.name biasA.binning fbad.binning) = true :=
  c9_binning_mismatch_aborts biasA [biasB] obsStC9
    ⟨biasB, by decide, by decide⟩

/-- C7 counterexample: the cluster grouper on an empty list does not
return an empty cluster list — `files[0]` raises an `IndexError`. -/
theorem c7_counterexample :
    get_file_clusters ([] : List FFile) 3600 ≠ .ok [] ∧
    get_file_clusters ([] : List FFile) 3600 = .error .indexError :=
  ⟨fun h => Except.noConfusion h, rfl⟩

/-- C7 amended: on an empty exposure list the cluster grouper fails with
an `IndexError` (from reading `files[0]`) for every gap threshold; its
callers guard against calling it on empty input. -/
theorem c7_empty_input_raises (step : Int) :
    get_file_clusters ([] : List FFile) step = .error .indexError := rfl

theorem splitOnComma_ne_nil (l : List Char) : splitOnComma l ≠ [] := by
  cases l with
  | nil => simp [splitOnComma]
  | cons c rest =>
    simp only [splitOnComma]
    cases splitOnComma rest with
    | nil => simp
    | cons f fs => by_cases h : c = ',' <;> simp [h]

theorem splitOnComma_no_comma (l : List Char) (h : ',' ∉ l) :
    splitOnComma l = [l] := by
  induction l with
  | nil => rfl
  | cons c rest ih =>
    have hc : ¬ (c = ',') := fun hcc => h (by rw [hcc]; exact List.mem_cons_self _ _)
    have hr : ',' ∉ rest := fun hm => h (List.mem_cons.mpr (Or.inr hm))
    simp only [splitOnComma, ih hr]
    simp [hc]

theorem splitOnComma_append_comma (a t : List Char) (h : ',' ∉ a) :
    splitOnComma (a ++ ',' :: t) = a :: splitOnComma t := by
  induction a with
  | nil =>
    simp only [List.nil_append, splitOnComma]
    cases hs : splitOnComma t with
    | nil => exact absurd hs (splitOnComma_ne_nil t)
    | cons f fs => simp
  | cons c a' ih =>
    have hc : ¬ (c = ',') := fun hcc => h (by rw [hcc]; exact List.mem_cons_self _ _)
    have ha' : ',' ∉ a' := fun hm => h (List.mem_cons.mpr (Or.inr hm))
    simp only [List.cons_append, splitOnComma, List.append_eq]
    rw [ih ha']
    simp [hc]

theorem splitOnComma_joinFields (f : List Char) (fs : List (List Char))
    (h : ∀ g ∈ f :: fs, ',' ∉ g) :
    splitOnComma (joinFields (f :: fs)) =
      f :: fs.map (fun g => ' ' :: g) := by
  induction fs generalizing f with
  | nil => exact splitOnComma_no_comma f (h f (List.mem_cons_self f []))
  | cons g gs ih =>
    have hf : ',' ∉ f := h f (List.mem_cons_self f (g :: gs))
    have htail : ∀ x ∈ g :: gs, ',' ∉ x :=
      fun x hx => h x (List.mem_cons.mpr (Or.inr hx))
    have ih' := ih g htail
    show splitOnComma (f ++ ',' :: ' ' :: joinFields (g :: gs)) = _
    rw [splitOnComma_append_comma f _ hf]
    simp only [splitOnComma, ih']
    simp

/-- A concrete all-`?` pending-log row for the C5 counterexample. -/
def entryRowC5 : List (List Char) :=
  ["01-01-2021".toList, "Light file".toList, "3x3".toList, "R".toList,
   "?".toList, "?".toList, "?".toList, "-".toList, "p.fits".toList]

/-- C5 counterexample: appending a row and reading the log back does NOT
reproduce the fields string-for-string — the writer joins with `", "` but
the reader splits on `","` only, so every field after the first comes back
with one leading space (`" Light file"`, `" ?"`, …). -/
theorem c5_counterexample :
    (read_pending_log (append_pending_log none entryRowC5)).getLastD []
      ≠ entryRowC5 ∧
    (read_pending_log (append_pending_log none entryRowC5)).getLastD [] =
      ["01-01-2021".toList, " Light file".toList, " 3x3".toList,
       " R".toList, " ?".toList, " ?".toList, " ?".toList, " -".toList,
       " p.fits".toList] :=
  ⟨by decide, by decide⟩

/-- C5 amended: for rows whose fields contain no comma, appending and
reading back reproduces the first field verbatim and every later field
with exactly one leading space prepended (the residue of the `", "`
delimiter); stripping that space recovers every field, `?` included. -/
theorem c5_roundtrip_amended (file : Option (List (List Char)))
    (f1 : List Char) (fs : List (List Char))
    (h : ∀ g ∈ f1 :: fs, ',' ∉ g) :
    (read_pending_log (append_pending_log file (f1 :: fs))).getLastD [] =
      f1 :: fs.map (fun g => ' ' :: g) := by
  cases file with
  | none =>
    simp only [append_pending_log, read_pending_log, List.map_cons,
      List.map_nil, List.getLastD_cons, List.getLastD_nil]
    exact splitOnComma_joinFields f1 fs h
  | some lines =>
    simp only [append_pending_log, read_pending_log, List.map_append,
      List.map_cons, List.map_nil]
    rw [List.getLastD_concat]
    exact splitOnComma_joinFields f1 fs h

/-- Witness for C5 on the concrete all-`?` row appended to a fresh log. -/
theorem c5_roundtrip_witness :
    (read_pending_log (append_pending_log none entryRowC5)).getLastD [] =
      ("01-01-2021".toList) ::
        (["Light file".toList, "3x3".toList, "R".toList, "?".toList,
          "?".toList, "?".toList, "-".toList, "p.fits".toList]).map
          (fun g => ' ' :: g) :=
  c5_roundtrip_amended none ("01-01-2021".toList)
    ["Light file".toList, "3x3".toList, "R".toList, "?".toList,
     "?".toList, "?".toList, "-".toList, "p.fits".toList] (by decide)

/-! Claim theorems for the Cluster Grouper. -/

/-- The chronologically first exposure of the C6 counterexample. -/
def fileA : FFile := { id := 0, time := 0 }

/-- The middle exposure of the C6 counterexample. -/
def fileB : FFile := { id := 1, time := 4000 }

/-- The chronologically last exposure of the C6 counterexample. -/
def fileC : FFile := { id := 2, time := 8000 }

/-- C6 counterexample: on the unsorted input `[C, A, B]` (gaps above the
3600 s threshold between all of them) the grouper returns
`[[A,B], [], [A,B,C]]` — exposures A and B appear twice and an empty
cluster appears, because the recorded split indices are looked up in the
original unsorted list while the slices are taken from the sorted one. -/
theorem c6_counterexample :
    get_file_clusters [fileC, fileA, fileB] 3600 =
      .ok [[fileA, fileB], [], [fileA, fileB, fileC]] ∧
    [[fileA, fileB], [], [fileA, fileB, fileC]].flatten.count fileA = 2 ∧
    ([fileC, fileA, fileB] : List FFile).count fileA = 1 :=
  ⟨rfl, by decide, by decide⟩

/-- The creation time of the exposure at position `k` (0 when out of
range). -/
def timeAt (l : List FFile) (k : Nat) : Int :=
  (l.getD k { id := 0, time := 0 }).time

/-- The split positions of a gap walk over a list starting at position
`k` with previous creation time `prev`: the positions whose time exceeds
the previous one's by more than `step`. -/
def splitPositions (step : Int) : Nat → Int → List FFile → List Nat
  | _, _, [] => []
  | k, prev, f :: rest =>
    if step < f.time - prev then
      k :: splitPositions step (k + 1) f.time rest
    else splitPositions step (k + 1) f.time rest

theorem sortByTime_of_sorted :
    ∀ l : List FFile, List.Chain' (fun a b => a.time ≤ b.time) l →
      sortByTime l = l := by
  intro l
  induction l with
  | nil => intro _; rfl
  | cons x xs ih =>
    intro h
    have hxs : List.Chain' (fun a b : FFile => a.time ≤ b.time) xs := h.tail
    simp only [sortByTime, ih hxs]
    cases xs with
    | nil => rfl
    | cons y ys =>
      have hxy : x.time ≤ y.time := (List.chain'_cons.mp h).1
      simp [insertByTime, hxy]

theorem pyIndex_append (f : FFile) :
    ∀ (pre l' : List FFile), f ∉ pre →
      pyIndex f (pre ++ f :: l') = pre.length := by
  intro pre
  induction pre with
  | nil => intro l' _; simp [pyIndex]
  | cons g pre' ih =>
    intro l' h
    have hfg : ¬ (f = g) := fun hc => h (by rw [hc]; exact List.mem_cons_self _ _)
    have h' : f ∉ pre' := fun hm => h (List.mem_cons.mpr (Or.inr hm))
    simp [pyIndex, hfg, ih l' h']

theorem stepIndsAux_eq_splitPositions (step : Int) :
    ∀ (l pre : List FFile) (prev : Int), (pre ++ l).Nodup →
      stepIndsAux (pre ++ l) step prev l =
        splitPositions step pre.length prev l := by
  intro l
  induction l with
  | nil => intro pre prev _; rfl
  | cons f rest ih =>
    intro pre prev hnd
    have hfnotpre : f ∉ pre := by
      have := (List.nodup_append.mp hnd).2.2
      intro hc
      exact this hc (List.mem_cons_self f rest)
    have hre : ((pre ++ [f]) ++ rest).Nodup := by
      rw [List.append_assoc, List.singleton_append]
      exact hnd
    have hrec := ih (pre ++ [f]) f.time hre
    rw [List.append_assoc, List.singleton_append] at hrec
    simp only [stepIndsAux, splitPositions,
      pyIndex_append f pre rest hfnotpre, hrec, List.length_append,
      List.length_singleton]

theorem timeAt_cons_succ (f : FFile) (rest : List FFile) (i : Nat) :
    timeAt (f :: rest) (i + 1) = timeAt rest i := rfl

theorem timeAt_cons_zero (f : FFile) (rest : List FFile) :
    timeAt (f :: rest) 0 = f.time := rfl

theorem timeAt_cons_pred (f : FFile) (rest : List FFile) (i : Nat) :
    timeAt (f :: rest) i = if i = 0 then f.time else timeAt rest (i - 1) := by
  cases i with
  | zero => rfl
  | succ m => simp [timeAt_cons_succ]

theorem splitPositions_mem (step : Int) :
    ∀ (l : List FFile) (k : Nat) (prev : Int) (j : Nat),
      j ∈ splitPositions step k prev l ↔
        ∃ i, i < l.length ∧ j = k + i ∧
          step < timeAt l i - (if i = 0 then prev else timeAt l (i - 1)) := by
  intro l
  induction l with
  | nil =>
    intro k prev j
    simp [splitPositions]
  | cons f rest ih =>
    intro k prev j
    have hgap : ∀ i : Nat,
        (timeAt (f :: rest) (i + 1) -
          (if i + 1 = 0 then prev else timeAt (f :: rest) (i + 1 - 1))) =
        (timeAt rest i - (if i = 0 then f.time else timeAt rest (i - 1))) := by
      intro i
      rw [if_neg (Nat.succ_ne_zero i), Nat.add_sub_cancel,
        timeAt_cons_succ, timeAt_cons_pred]
    constructor
    · intro hj
      simp only [splitPositions] at hj
      by_cases hf : step < f.time - prev
      · rw [if_pos hf] at hj
        rcases List.mem_cons.mp hj with h | hj'
        · exact ⟨0, Nat.succ_pos _, by omega, by simpa [timeAt_cons_zero]⟩
        · obtain ⟨i, hi, hji, hg⟩ := (ih (k + 1) f.time j).mp hj'
          refine ⟨i + 1, by simp only [List.length_cons]; omega,
            by omega, ?_⟩
          rw [hgap i]
          exact hg
      · rw [if_neg hf] at hj
        obtain ⟨i, hi, hji, hg⟩ := (ih (k + 1) f.time j).mp hj
        refine ⟨i + 1, by simp only [List.length_cons]; omega, by omega, ?_⟩
        rw [hgap i]
        exact hg
    · rintro ⟨i, hi, hji, hg⟩
      simp only [splitPositions]
      cases i with
      | zero =>
        have hf : step < f.time - prev := by
          simpa [timeAt_cons_zero] using hg
        rw [if_pos hf]
        exact List.mem_cons.mpr (Or.inl (by omega))
      | succ m =>
        have hg' : step < timeAt rest m -
            (if m = 0 then f.time else timeAt rest (m - 1)) := by
          rw [← hgap m]
          exact hg
        have hmem := (ih (k + 1) f.time j).mpr
          ⟨m, by simp only [List.length_cons] at hi; omega, by omega, hg'⟩
        by_cases hf : step < f.time - prev
        · rw [if_pos hf]
          exact List.mem_cons.mpr (Or.inr hmem)
        · rw [if_neg hf]
          exact hmem

theorem splitPositions_lb (step : Int) (l : List FFile) (k : Nat)
    (prev : Int) (j : Nat) (hj : j ∈ splitPositions step k prev l) :
    k ≤ j ∧ j < k + l.length := by
  obtain ⟨i, hi, hji, _⟩ := (splitPositions_mem step l k prev j).mp hj
  omega

theorem splitPositions_pairwise (step : Int) :
    ∀ (l : List FFile) (k : Nat) (prev : Int),
      List.Pairwise (· < ·) (splitPositions step k prev l) := by
  intro l
  induction l with
  | nil =>
    intro k prev
    simp [splitPositions]
  | cons f rest ih =>
    intro k prev
    simp only [splitPositions]
    by_cases hf : step < f.time - prev
    · rw [if_pos hf]
      refine List.Pairwise.cons ?_ (ih (k + 1) f.time)
      intro b hb
      have := (splitPositions_lb step rest (k + 1) f.time b hb).1
      omega
    · rw [if_neg hf]
      exact ih (k + 1) f.time

theorem getLastD_cons_cons (a b : Nat) (l : List Nat) (d : Nat) :
    (a :: b :: l).getLastD d = (b :: l).getLastD d := by
  rw [List.getLastD_eq_getLast?, List.getLastD_eq_getLast?,
    List.getLast?_cons_cons]

theorem adjacent_flatten (fs : List FFile) :
    ∀ (inds : List Nat) (a : Nat), List.Chain' (· ≤ ·) (a :: inds) →
      fs.take a ++ ((adjacentSlices fs (a :: inds)).flatten ++
        fs.drop ((a :: inds).getLastD 0)) = fs := by
  intro inds
  induction inds with
  | nil =>
    intro a _
    show fs.take a ++ (([] : List (List FFile)).flatten ++ fs.drop a) = fs
    rw [List.flatten_nil, List.nil_append, List.take_append_drop]
  | cons b rest ih =>
    intro a h
    have hab : a ≤ b := (List.chain'_cons.mp h).1
    have hbc : List.Chain' (· ≤ ·) (b :: rest) := (List.chain'_cons.mp h).2
    have hslice : fs.take a ++ pySlice fs a b = fs.take b := by
      have hb : b = a + (b - a) := by omega
      rw [pySlice]
      conv_rhs => rw [hb]
      rw [List.take_add]
    show fs.take a ++
      ((pySlice fs a b :: adjacentSlices fs (b :: rest)).flatten ++
        fs.drop ((a :: b :: rest).getLastD 0)) = fs
    rw [List.flatten_cons, getLastD_cons_cons, List.append_assoc,
      ← List.append_assoc (fs.take a), hslice]
    exact ih b hbc

theorem clustersFromInds_flatten (fs : List FFile) (inds : List Nat)
    (hp : List.Pairwise (· < ·) inds) :
    (clustersFromInds fs inds).flatten = fs := by
  cases inds with
  | nil => simp [clustersFromInds]
  | cons i0 rest =>
    have hchain : List.Chain' (· ≤ ·) (i0 :: rest) := by
      have hc : List.Chain' (· < ·) (i0 :: rest) :=
        List.chain'_iff_pairwise.mpr hp
      exact List.Chain'.imp (fun a b hab => Nat.le_of_lt hab) hc
    show ((pySlice fs 0 i0) :: (adjacentSlices fs (i0 :: rest) ++
      [fs.drop ((i0 :: rest).getLastD 0)])).flatten = fs
    rw [List.flatten_cons, List.flatten_append, List.flatten_cons,
      List.flatten_nil, List.append_nil]
    have h0 : pySlice fs 0 i0 = fs.take i0 := by
      simp [pySlice]
    rw [h0]
    exact adjacent_flatten fs rest i0 hchain

theorem get_file_clusters_sorted_eq (f0 : FFile) (rest : List FFile)
    (step : Int)
    (hsorted : List.Chain' (fun a b => a.time ≤ b.time) (f0 :: rest))
    (hnodup : (f0 :: rest).Nodup) :
    get_file_clusters (f0 :: rest) step =
      .ok (clustersFromInds (f0 :: rest)
        (splitPositions step 0 f0.time (f0 :: rest))) := by
  have hsort : sortByTime (f0 :: rest) = f0 :: rest :=
    sortByTime_of_sorted _ hsorted
  have hbridge : stepIndsAux (f0 :: rest) step f0.time (f0 :: rest) =
      splitPositions step 0 f0.time (f0 :: rest) := by
    have h := stepIndsAux_eq_splitPositions step (f0 :: rest) [] f0.time
      (by simpa using hnodup)
    simpa using h
  simp only [get_file_clusters, hsort, hbridge]
  cases hsi : splitPositions step 0 f0.time (f0 :: rest) with
  | nil => simp [clustersFromInds]
  | cons i0 rest' => rfl

theorem pairwise_mem_min_head (m : Nat) (l : List Nat)
    (hp : List.Pairwise (· < ·) l) (hm : m ∈ l)
    (hmin : ∀ j ∈ l, m ≤ j) : ∃ v, l = m :: v := by
  cases l with
  | nil => simp at hm
  | cons x xs =>
    rcases List.mem_cons.mp hm with h | h
    · exact ⟨xs, by rw [h]⟩
    · have hxm : x < m := (List.pairwise_cons.mp hp).1 m h
      have := hmin x (List.mem_cons_self x xs)
      omega

theorem pairwise_mem_max_last (m : Nat) :
    ∀ l : List Nat, List.Pairwise (· < ·) l → m ∈ l →
      (∀ j ∈ l, j ≤ m) → l.getLastD 0 = m := by
  intro l
  induction l with
  | nil =>
    intro _ hm
    simp at hm
  | cons x xs ih =>
    intro hp hm hmax
    cases xs with
    | nil =>
      have hx : m = x := by simpa using hm
      rw [hx]
      rfl
    | cons y ys =>
      rw [getLastD_cons_cons]
      have hxy : x < y :=
        (List.pairwise_cons.mp hp).1 y (List.mem_cons_self y ys)
      have hm' : m ∈ y :: ys := by
        rcases List.mem_cons.mp hm with h | h
        · exfalso
          have hy := hmax y
            (List.mem_cons.mpr (Or.inr (List.mem_cons_self y ys)))
          omega
        · exact h
      exact ih (List.pairwise_cons.mp hp).2 hm'
        (fun j hj => hmax j (List.mem_cons.mpr (Or.inr hj)))

theorem pairwise_adjacent_split (k : Nat) :
    ∀ l : List Nat, List.Pairwise (· < ·) l → k ∈ l → k + 1 ∈ l →
      ∃ u v, l = u ++ k :: (k + 1) :: v := by
  intro l
  induction l with
  | nil =>
    intro _ h
    simp at h
  | cons x xs ih =>
    intro hp hk hk1
    rcases List.mem_cons.mp hk with hx | hx
    · have hk1' : k + 1 ∈ xs := by
        rcases List.mem_cons.mp hk1 with h | h
        · omega
        · exact h
      cases xs with
      | nil => simp at hk1'
      | cons y ys =>
        have hxy : x < y :=
          (List.pairwise_cons.mp hp).1 y (List.mem_cons_self y ys)
        rcases List.mem_cons.mp hk1' with hy | hy
        · refine ⟨[], ys, ?_⟩
          rw [List.nil_append, ← hx, ← hy]
        · have hyk : y < k + 1 :=
            (List.pairwise_cons.mp (List.pairwise_cons.mp hp).2).1 (k + 1) hy
          omega
    · have hxk : x < k := (List.pairwise_cons.mp hp).1 k hx
      have hk1' : k + 1 ∈ xs := by
        rcases List.mem_cons.mp hk1 with h | h
        · omega
        · exact h
      obtain ⟨u, v, huv⟩ := ih (List.pairwise_cons.mp hp).2 hx hk1'
      exact ⟨x :: u, v, by rw [huv]; rfl⟩

theorem slice_mem_adjacent (fs : List FFile) (a b : Nat) :
    ∀ (u v : List Nat),
      pySlice fs a b ∈ adjacentSlices fs (u ++ a :: b :: v) := by
  intro u
  induction u with
  | nil =>
    intro v
    exact List.mem_cons_self _ _
  | cons x u' ih =>
    intro v
    show pySlice fs a b ∈ adjacentSlices fs (x :: (u' ++ a :: b :: v))
    cases hu : u' ++ a :: b :: v with
    | nil => exact absurd hu (by simp)
    | cons z w =>
      show pySlice fs a b ∈ pySlice fs x z :: adjacentSlices fs (z :: w)
      refine List.mem_cons.mpr (Or.inr ?_)
      rw [← hu]
      exact ih v

theorem drop_take_one :
    ∀ (l : List FFile) (k : Nat), k < l.length →
      (l.drop k).take 1 = [l.getD k { id := 0, time := 0 }] := by
  intro l
  induction l with
  | nil =>
    intro k h
    simp at h
  | cons x xs ih =>
    intro k h
    cases k with
    | zero => rfl
    | succ m =>
      simp only [List.drop_succ_cons, List.getD_cons_succ]
      exact ih m (by simp only [List.length_cons] at h; omega)

theorem pySlice_succ_self (fs : List FFile) (k : Nat)
    (h : k < fs.length) :
    pySlice fs k (k + 1) = [fs.getD k { id := 0, time := 0 }] := by
  have h1 : k + 1 - k = 1 := by omega
  rw [pySlice, h1]
  exact drop_take_one fs k h

theorem drop_last_singleton :
    ∀ (l : List FFile) (k : Nat), k + 1 = l.length →
      l.drop k = [l.getD k { id := 0, time := 0 }] := by
  intro l
  induction l with
  | nil =>
    intro k h
    simp at h
  | cons x xs ih =>
    intro k h
    cases k with
    | zero =>
      have hxs : xs = [] := by
        simp only [List.length_cons] at h
        exact List.length_eq_zero.mp (by omega)
      rw [hxs]
      rfl
    | succ m =>
      simp only [List.drop_succ_cons, List.getD_cons_succ]
      exact ih m (by simp only [List.length_cons] at h; omega)

/-- C6 amended: for input lists of DISTINCT exposures ALREADY SORTED
chronologically (and a non-negative gap threshold) the grouper's clusters
partition the input exactly in input (= chronological) order, and an
exposure whose gaps to both neighbours exceed the threshold forms a
cluster of size one; the original claim's "in any order" fails because the
split indices are looked up in the original unsorted list. -/
theorem c6_clusters_amended (files : List FFile) (step : Int)
    (cs : List (List FFile))
    (hsorted : List.Chain' (fun a b => a.time ≤ b.time) files)
    (hnodup : files.Nodup) (hstep : 0 ≤ step)
    (h : get_file_clusters files step = .ok cs) :
    cs.flatten = files ∧
    ∀ k : Nat, k < files.length →
      (1 ≤ k → step < timeAt files k - timeAt files (k - 1)) →
      (k + 1 < files.length →
        step < timeAt files (k + 1) - timeAt files k) →
      [files.getD k { id := 0, time := 0 }] ∈ cs := by
  cases files with
  | nil => exact Except.noConfusion h
  | cons f0 rest =>
    rw [get_file_clusters_sorted_eq f0 rest step hsorted hnodup] at h
    injection h with h
    subst h
    have hp := splitPositions_pairwise step (f0 :: rest) 0 f0.time
    have hmemc : ∀ j : Nat,
        j ∈ splitPositions step 0 f0.time (f0 :: rest) ↔
        (1 ≤ j ∧ j < (f0 :: rest).length ∧
          step < timeAt (f0 :: rest) j - timeAt (f0 :: rest) (j - 1)) := by
      intro j
      rw [splitPositions_mem]
      constructor
      · rintro ⟨i, hi, hj, hg⟩
        cases i with
        | zero =>
          exfalso
          rw [if_pos rfl, timeAt_cons_zero] at hg
          omega
        | succ m =>
          rw [if_neg (Nat.succ_ne_zero m)] at hg
          have hj' : j = m + 1 := by omega
          subst hj'
          refine ⟨by omega, by omega, ?_⟩
          simpa using hg
      · rintro ⟨hj1, hjn, hg⟩
        refine ⟨j, hjn, by omega, ?_⟩
        rw [if_neg (by omega)]
        exact hg
    refine ⟨clustersFromInds_flatten _ _ hp, ?_⟩
    intro k hk hleft hright
    by_cases hn1 : (f0 :: rest).length = 1
    · have hk0 : k = 0 := by omega
      subst hk0
      have hrest : rest = [] := by
        simp only [List.length_cons] at hn1
        exact List.length_eq_zero.mp (by omega)
      subst hrest
      have hinds : splitPositions step 0 f0.time [f0] = [] := by
        cases hv : splitPositions step 0 f0.time [f0] with
        | nil => rfl
        | cons j v =>
          exfalso
          have hjm : j ∈ splitPositions step 0 f0.time [f0] := by
            rw [hv]
            exact List.mem_cons_self j v
          have := (hmemc j).mp hjm
          simp only [List.length_cons, List.length_nil] at this
          omega
      rw [hinds]
      show [f0] ∈ [[f0]]
      exact List.mem_cons_self _ _
    · by_cases hk0 : k = 0
      · subst hk0
        have hg1 := hright (by simp only [List.length_cons] at hk hn1 ⊢; omega)
        have h1mem : 1 ∈ splitPositions step 0 f0.time (f0 :: rest) :=
          (hmemc 1).mpr ⟨le_refl 1,
            by simp only [List.length_cons] at hn1 ⊢; omega,
            by simpa using hg1⟩
        have hmin : ∀ j ∈ splitPositions step 0 f0.time (f0 :: rest),
            1 ≤ j := fun j hj => ((hmemc j).mp hj).1
        obtain ⟨v, hv⟩ := pairwise_mem_min_head 1 _ hp h1mem hmin
        rw [hv]
        show [(f0 :: rest).getD 0 { id := 0, time := 0 }] ∈
          pySlice (f0 :: rest) 0 1 ::
            (adjacentSlices (f0 :: rest) (1 :: v) ++
              [(f0 :: rest).drop ((1 :: v).getLastD 0)])
        exact List.mem_cons.mpr (Or.inl rfl)
      · have hk1 : 1 ≤ k := by omega
        have hgk := hleft hk1
        have hkmem : k ∈ splitPositions step 0 f0.time (f0 :: rest) :=
          (hmemc k).mpr ⟨hk1, hk, hgk⟩
        by_cases hklast : k + 1 = (f0 :: rest).length
        · have hmax : ∀ j ∈ splitPositions step 0 f0.time (f0 :: rest),
              j ≤ k := by
            intro j hj
            have := ((hmemc j).mp hj).2.1
            omega
          have hlastk := pairwise_mem_max_last k _ hp hkmem hmax
          cases hi : splitPositions step 0 f0.time (f0 :: rest) with
          | nil =>
            rw [hi] at hkmem
            simp at hkmem
          | cons i0 v =>
            show [(f0 :: rest).getD k { id := 0, time := 0 }] ∈
              pySlice (f0 :: rest) 0 i0 ::
                (adjacentSlices (f0 :: rest) (i0 :: v) ++
                  [(f0 :: rest).drop ((i0 :: v).getLastD 0)])
            have hlast2 : (i0 :: v).getLastD 0 = k := by
              rw [← hi]
              exact hlastk
            have hdrop : (f0 :: rest).drop k =
                [(f0 :: rest).getD k { id := 0, time := 0 }] :=
              drop_last_singleton _ k hklast
            refine List.mem_cons.mpr (Or.inr (List.mem_append.mpr
              (Or.inr ?_)))
            rw [hlast2, hdrop]
            exact List.mem_cons_self _ _
        · have hgk1 := hright (by simp only [List.length_cons] at hk hklast ⊢; omega)
          have hk1mem : k + 1 ∈
              splitPositions step 0 f0.time (f0 :: rest) :=
            (hmemc (k + 1)).mpr ⟨by omega,
              by simp only [List.length_cons] at hk hklast ⊢; omega,
              by simpa using hgk1⟩
          obtain ⟨u, v, huv⟩ :=
            pairwise_adjacent_split k _ hp hkmem hk1mem
          cases hi : splitPositions step 0 f0.time (f0 :: rest) with
          | nil =>
            rw [hi] at hkmem
            simp at hkmem
          | cons i0 w =>
            show [(f0 :: rest).getD k { id := 0, time := 0 }] ∈
              pySlice (f0 :: rest) 0 i0 ::
                (adjacentSlices (f0 :: rest) (i0 :: w) ++
                  [(f0 :: rest).drop ((i0 :: w).getLastD 0)])
            refine List.mem_cons.mpr (Or.inr (List.mem_append.mpr
              (Or.inl ?_)))
            have hsl : pySlice (f0 :: rest) k (k + 1) =
                [(f0 :: rest).getD k { id := 0, time := 0 }] :=
              pySlice_succ_self _ k hk
            rw [← hsl, ← hi, huv]
            exact slice_mem_adjacent (f0 :: rest) k (k + 1) u v

/-- Witness for C6 on the sorted input `[A, B, C]` with gaps above the
threshold, whose clusters are three singletons. -/
theorem c6_clusters_witness :
    ([[fileA], [fileB], [fileC]] : List (List FFile)).flatten =
      [fileA, fileB, fileC] ∧
    ∀ k : Nat, k < ([fileA, fileB, fileC] : List FFile).length →
      (1 ≤ k → 3600 < timeAt [fileA, fileB, fileC] k -
        timeAt [fileA, fileB, fileC] (k - 1)) →
      (k + 1 < ([fileA, fileB, fileC] : List FFile).length →
        3600 < timeAt [fileA, fileB, fileC] (k + 1) -
          timeAt [fileA, fileB, fileC] k) →
      [([fileA, fileB, fileC] : List FFile).getD k
        { id := 0, time := 0 }] ∈ [[fileA], [fileB], [fileC]] :=
  c6_clusters_amended [fileA, fileB, fileC] 3600
    [[fileA], [fileB], [fileC]]
    (by norm_num [List.chain'_cons, fileA, fileB, fileC])
    (by decide) (by decide) rfl
